import Mathlib

/-!
Verification of the skip-gram data pipeline and checkpoint utilities.

The definitions below are a shallow embedding of the Python functions of the
repository: `get_target`, `get_batches`, the subsampling comprehension, and
`preprocess` / `create_lookup_tables` from `utils.ipynb`, together with the
checkpoint save/load round trip.  Python list slices are modelled by
`pySlice`, random draws are made explicit function arguments, and Python
dictionaries are modelled as association lists.
-/

namespace SkipGram

/-- Python list slice `ws[a:b]` for nonnegative bounds `a`, `b`:
the elements at positions `a, a+1, ..., min b (length ws) - 1`. -/
def pySlice {α : Type} (ws : List α) (a b : Nat) : List α :=
  (ws.drop a).take (b - a)

/-- Embedding of `get_target(words, idx, window_size)` from the skip-gram
notebook, with the randomly drawn radius `R = np.random.randint(1, window_size+1)`
made an explicit argument.  The source computes
`first = np.where((idx-R) > 0, idx - R, 3)` and returns
`words[first:idx] + words[idx+1:idx+R+1]`. -/
def get_target {α : Type} (ws : List α) (idx R : Nat) : List α :=
  pySlice ws (if R < idx then idx - R else 3) idx ++
    pySlice ws (idx + 1) (idx + R + 1)

/-- The window extraction as the claim describes it: the tokens at positions
`max 0 (idx - R)` through `idx - 1` followed by the tokens at positions
`idx + 1` through `min (length ws - 1) (idx + R)`.  (With `Nat` subtraction,
`idx - R` is already `max 0 (idx - R)`, and `pySlice` clamps the upper end.) -/
def get_target_claimed {α : Type} (ws : List α) (idx R : Nat) : List α :=
  pySlice ws (idx - R) idx ++ pySlice ws (idx + 1) (idx + R + 1)

/-- The example input for `get_target` given in the notebook's own markdown
cell: for `idx = 2` and `R = 2` it documents the expected output
`[5233, 58, 10571, 27349]`. -/
def exampleWords : List Nat :=
  [5233, 58, 741, 10571, 27349, 0, 15067, 58112, 3580, 58, 10712]

/-- C1: refuted by evaluation.  On the notebook's own documented example
(`idx = 2`, `R = 2`, window radius within `[1, window_size]`), the code
returns `[10571, 27349]` — it loses the left context `[5233, 58]` — while the
claimed behaviour (and the notebook's markdown) gives `[5233, 58, 10571, 27349]`.
The cause is the constant `3` in `np.where((idx-R) > 0, idx - R, 3)`, where the
documented behaviour needs `0`. -/
theorem get_target_claim_fails_on_documented_example :
    get_target exampleWords 2 2 = [10571, 27349] ∧
    get_target_claimed exampleWords 2 2 = [5233, 58, 10571, 27349] ∧
    get_target exampleWords 2 2 ≠ get_target_claimed exampleWords 2 2 := by
  refine ⟨rfl, rfl, ?_⟩
  decide

/-- The left half of a window slice ending at `idx` is a sublist of the first
`idx` tokens. -/
lemma pySlice_left_sublist {α : Type} (ws : List α) (a idx : Nat) :
    (pySlice ws a idx).Sublist (ws.take idx) := by
  unfold pySlice
  rw [← List.drop_take]
  exact List.drop_sublist a (ws.take idx)

/-- The right half of a window slice starting at `idx + 1` is a sublist of the
tokens after position `idx`. -/
lemma pySlice_right_sublist {α : Type} (ws : List α) (idx b : Nat) :
    (pySlice ws (idx + 1) b).Sublist (ws.drop (idx + 1)) := by
  unfold pySlice
  exact List.take_sublist _ _

/-- C10: confirmed.  Whatever radius is drawn, the list returned by
`get_target` is a sublist of the input with the entry at position `idx`
removed: the centre position never contributes to its own context window. -/
theorem get_target_excludes_center {α : Type} (ws : List α) (idx R : Nat) :
    (get_target ws idx R).Sublist (ws.eraseIdx idx) := by
  rw [List.eraseIdx_eq_take_drop_succ]
  exact List.Sublist.append (pySlice_left_sublist ws _ idx)
    (pySlice_right_sublist ws idx _)

/-- One `(inputs, targets)` batch as built by the loop body of `get_batches`:
for each position `ii` of the chunk, `y` is extended by
`get_target(batch, ii, window_size)` and `x` by the centre token repeated that
many times.  `Rs ii` is the radius drawn inside `get_target` at position `ii`. -/
def batch_xy {α : Type} (chunk : List α) (Rs : Nat → Nat) : List α × List α :=
  let parts := chunk.enum.map (fun p =>
    let t := get_target chunk p.1 (Rs p.1)
    (List.replicate t.length p.2, t))
  ((parts.map Prod.fst).flatten, (parts.map Prod.snd).flatten)

/-- Embedding of `get_batches(words, batch_size, window_size)`:
`n_batches = len(words) // batch_size`, the words are truncated to
`n_batches * batch_size`, and each consecutive chunk of `batch_size` words is
expanded by `batch_xy`.  `Rs b ii` is the radius drawn for position `ii` of
batch `b`. -/
def get_batches {α : Type} (ws : List α) (batch_size : Nat)
    (Rs : Nat → Nat → Nat) : List (List α × List α) :=
  let n_batches := ws.length / batch_size
  let ws2 := ws.take (n_batches * batch_size)
  (List.range n_batches).map (fun b =>
    batch_xy ((ws2.drop (b * batch_size)).take batch_size) (Rs b))

/-- Chunks taken inside the truncated list agree with chunks of the original
list, as long as the chunk ends inside the truncation. -/
lemma take_drop_take_eq {α : Type} (ws : List α) (m a bs : Nat)
    (h : a + bs ≤ m) :
    ((ws.take m).drop a).take bs = (ws.drop a).take bs := by
  rw [List.drop_take, List.take_take]
  congr 1
  omega

/-- The batch at index `b < n_batches` is `batch_xy` of the `b`-th chunk of
the original word list. -/
lemma get_batches_getD {α : Type} (ws : List α) (bs : Nat)
    (Rs : Nat → Nat → Nat) (b : Nat) (hb : b < ws.length / bs) :
    (get_batches ws bs Rs).getD b ([], []) =
      batch_xy ((ws.drop (b * bs)).take bs) (Rs b) := by
  unfold get_batches
  have hlen : b < ((List.range (ws.length / bs)).map (fun b =>
      batch_xy (((ws.take (ws.length / bs * bs)).drop (b * bs)).take bs)
        (Rs b))).length := by
    simpa using hb
  rw [List.getD_eq_getElem _ _ hlen, List.getElem_map, List.getElem_range]
  rw [take_drop_take_eq]
  have h1 : b + 1 ≤ ws.length / bs := hb
  calc b * bs + bs = (b + 1) * bs := by ring
    _ ≤ ws.length / bs * bs := Nat.mul_le_mul_right bs h1

/-- Each chunk addressed by a batch index has exactly `batch_size` elements. -/
lemma chunk_length_eq {α : Type} (ws : List α) (bs : Nat) (b : Nat)
    (hb : b < ws.length / bs) :
    ((ws.drop (b * bs)).take bs).length = bs := by
  have h2 : b * bs + bs ≤ ws.length := by
    calc b * bs + bs = (b + 1) * bs := by ring
      _ ≤ ws.length / bs * bs := Nat.mul_le_mul_right bs hb
      _ ≤ ws.length := Nat.div_mul_le_self ws.length bs
  simp only [List.length_take, List.length_drop]
  omega

/-- C2: confirmed.  `get_batches` yields exactly `len ws / batch_size`
batches; the `b`-th batch is built solely from the consecutive chunk
`ws[b*batch_size : (b+1)*batch_size]`, which has exactly `batch_size` tokens;
and replacing the input by its truncation to `(len ws / batch_size) * batch_size`
tokens — dropping the `len ws mod batch_size` trailing tokens — leaves every
batch unchanged. -/
theorem get_batches_chunking {α : Type} (ws : List α) (bs : Nat)
    (Rs : Nat → Nat → Nat) (hbs : 0 < bs) :
    (get_batches ws bs Rs).length = ws.length / bs ∧
    (∀ b, b < ws.length / bs →
      ((ws.drop (b * bs)).take bs).length = bs ∧
      (get_batches ws bs Rs).getD b ([], []) =
        batch_xy ((ws.drop (b * bs)).take bs) (Rs b)) ∧
    get_batches ws bs Rs = get_batches (ws.take (ws.length / bs * bs)) bs Rs := by
  refine ⟨by simp [get_batches], fun b hb => ⟨chunk_length_eq ws bs b hb,
    get_batches_getD ws bs Rs b hb⟩, ?_⟩
  have hm : ws.length / bs * bs ≤ ws.length := Nat.div_mul_le_self ws.length bs
  have hlen : (ws.take (ws.length / bs * bs)).length = ws.length / bs * bs := by
    simp only [List.length_take]
    omega
  have hdiv : (ws.take (ws.length / bs * bs)).length / bs = ws.length / bs := by
    rw [hlen, Nat.mul_div_cancel _ hbs]
  unfold get_batches
  dsimp only
  rw [hdiv]
  simp only [List.take_take, min_self]

/-- C2 witness: the theorem applied at `ws = [0,1,2,3,4]`, `batch_size = 2`
and the constant radius draw `1`. -/
theorem get_batches_chunking_witness :
    0 < 2 ∧
    ((get_batches [0, 1, 2, 3, 4] 2 (fun _ _ => 1)).length = 5 / 2 ∧
    (∀ b, b < 5 / 2 →
      (([0, 1, 2, 3, 4].drop (b * 2)).take 2).length = 2 ∧
      (get_batches [0, 1, 2, 3, 4] 2 (fun _ _ => 1)).getD b ([], []) =
        batch_xy (([0, 1, 2, 3, 4].drop (b * 2)).take 2) ((fun _ _ => 1) b)) ∧
    get_batches [0, 1, 2, 3, 4] 2 (fun _ _ => 1) =
      get_batches ([0, 1, 2, 3, 4].take (5 / 2 * 2)) 2 (fun _ _ => 1)) := by
  refine ⟨by decide, ?_⟩
  have h := get_batches_chunking [0, 1, 2, 3, 4] 2 (fun _ _ => 1) (by decide)
  simpa using h

/-- Zipping a replication of `a` against a list pairs `a` with each element. -/
lemma replicate_zip {α β : Type} (a : α) (l : List β) :
    (List.replicate l.length a).zip l = l.map (fun c => (a, c)) := by
  induction l with
  | nil => rfl
  | cons b t ih => simp [List.replicate_succ, ih]

/-- Zipping two flattenings piece by piece, when corresponding pieces have
equal lengths. -/
lemma zip_flatten_eq {α β : Type} (parts : List (List α × List β))
    (h : ∀ p ∈ parts, p.1.length = p.2.length) :
    ((parts.map Prod.fst).flatten).zip ((parts.map Prod.snd).flatten) =
      (parts.map (fun p => p.1.zip p.2)).flatten := by
  induction parts with
  | nil => rfl
  | cons p ps ih =>
    simp only [List.map_cons, List.flatten_cons]
    rw [List.zip_append (h p (List.mem_cons_self p ps)),
      ih (fun q hq => h q (List.mem_cons_of_mem p hq))]

/-- The two flattenings have equal length when corresponding pieces do. -/
lemma flatten_length_eq {α β : Type} (parts : List (List α × List β))
    (h : ∀ p ∈ parts, p.1.length = p.2.length) :
    (parts.map Prod.fst).flatten.length = (parts.map Prod.snd).flatten.length := by
  induction parts with
  | nil => rfl
  | cons p ps ih =>
    simp only [List.map_cons, List.flatten_cons, List.length_append]
    rw [h p (List.mem_cons_self p ps),
      ih (fun q hq => h q (List.mem_cons_of_mem p hq))]

/-- The `(x, y)` pair built from one chunk has equally long components, and
zipping them gives, for each chunk position in order, the centre token paired
with each of its `get_target` context tokens. -/
lemma batch_xy_pairs {α : Type} (chunk : List α) (Rf : Nat → Nat) :
    (batch_xy chunk Rf).1.length = (batch_xy chunk Rf).2.length ∧
    (batch_xy chunk Rf).1.zip (batch_xy chunk Rf).2 =
      (chunk.enum.map (fun q =>
        (get_target chunk q.1 (Rf q.1)).map (fun c => (q.2, c)))).flatten := by
  unfold batch_xy
  dsimp only
  have hlen : ∀ p ∈ chunk.enum.map (fun p =>
      (List.replicate (get_target chunk p.1 (Rf p.1)).length p.2,
        get_target chunk p.1 (Rf p.1))), p.1.length = p.2.length := by
    intro p hp
    simp only [List.mem_map] at hp
    obtain ⟨q, _, rfl⟩ := hp
    simp
  refine ⟨flatten_length_eq _ hlen, ?_⟩
  rw [zip_flatten_eq _ hlen, List.map_map]
  congr 1
  apply List.map_congr_left
  intro q _
  simp only [Function.comp_apply]
  exact replicate_zip q.2 (get_target chunk q.1 (Rf q.1))

/-- C3: confirmed.  Every batch `(x, y)` yielded by `get_batches` has
`len x = len y`, and the pairs `(x[k], y[k])` are exactly, for each position
`ii` of the chunk in order, the centre token `chunk[ii]` paired with each
context token returned by `get_target`, in that order. -/
theorem get_batches_pair_structure {α : Type} (ws : List α) (bs : Nat)
    (Rs : Nat → Nat → Nat) (b : Nat)
    (hb : b < (get_batches ws bs Rs).length) :
    ((get_batches ws bs Rs).getD b ([], [])).1.length =
      ((get_batches ws bs Rs).getD b ([], [])).2.length ∧
    ((get_batches ws bs Rs).getD b ([], [])).1.zip
        ((get_batches ws bs Rs).getD b ([], [])).2 =
      ((((ws.drop (b * bs)).take bs).enum).map (fun q =>
        (get_target ((ws.drop (b * bs)).take bs) q.1 (Rs b q.1)).map
          (fun c => (q.2, c)))).flatten := by
  have hb2 : b < ws.length / bs := by
    simpa [get_batches] using hb
  rw [get_batches_getD ws bs Rs b hb2]
  exact batch_xy_pairs ((ws.drop (b * bs)).take bs) (Rs b)

/-- C3 witness: the theorem applied to the first batch of
`get_batches [10, 20, 30, 40] 2` with constant radius draw `1`. -/
theorem get_batches_pair_structure_witness :
    0 < (get_batches [10, 20, 30, 40] 2 (fun _ _ => 1)).length ∧
    (((get_batches [10, 20, 30, 40] 2 (fun _ _ => 1)).getD 0 ([], [])).1.length =
      ((get_batches [10, 20, 30, 40] 2 (fun _ _ => 1)).getD 0 ([], [])).2.length ∧
    ((get_batches [10, 20, 30, 40] 2 (fun _ _ => 1)).getD 0 ([], [])).1.zip
        ((get_batches [10, 20, 30, 40] 2 (fun _ _ => 1)).getD 0 ([], [])).2 =
      (((([10, 20, 30, 40].drop (0 * 2)).take 2).enum).map (fun q =>
        (get_target (([10, 20, 30, 40].drop (0 * 2)).take 2) q.1
          ((fun _ _ => 1) 0 q.1)).map (fun c => (q.2, c)))).flatten) :=
  ⟨by decide, get_batches_pair_structure [10, 20, 30, 40] 2 (fun _ _ => 1) 0
    (by decide)⟩

/-- Embedding of the subsampling comprehension
`train_words = [word for word in int_words if random.random() < (1 - p_drop[word])]`.
The outcome of the random draw made for each position is abstracted into a
boolean `keep` indexed by position; every possible outcome of the draws is
some such function. -/
def train_words (int_words : List Nat) (keep : Nat → Bool) : List Nat :=
  (int_words.enum.filter (fun p => keep p.1)).map Prod.snd

/-- C9: confirmed.  For every outcome of the random draws, the subsampled
list is a subsequence of the input: retained tokens keep their relative
order, each value occurs at most as often as in the input, and no value
absent from the input appears. -/
theorem train_words_subsequence (int_words : List Nat) (keep : Nat → Bool) :
    (train_words int_words keep).Sublist int_words ∧
    (∀ v, (train_words int_words keep).count v ≤ int_words.count v) ∧
    (∀ v ∈ train_words int_words keep, v ∈ int_words) := by
  have hsub : (train_words int_words keep).Sublist int_words := by
    unfold train_words
    have h1 : (int_words.enum.filter (fun p => keep p.1)).Sublist
        int_words.enum := List.filter_sublist _
    have h2 := h1.map Prod.snd
    rwa [List.enum_map_snd] at h2
  exact ⟨hsub, fun v => hsub.count_le v, fun v hv => hsub.subset hv⟩

/-- The distinct elements of a list in order of first occurrence — the
iteration order of the keys of Python's `Counter(words)`. -/
def uniqueOrder {α : Type} [DecidableEq α] (ws : List α) : List α :=
  ws.foldl (fun acc w => if w ∈ acc then acc else acc ++ [w]) []

lemma uniqueOrder_loop_mem {α : Type} [DecidableEq α] :
    ∀ (ws acc : List α) (x : α),
      x ∈ ws.foldl (fun acc w => if w ∈ acc then acc else acc ++ [w]) acc ↔
        x ∈ acc ∨ x ∈ ws := by
  intro ws
  induction ws with
  | nil => simp
  | cons a t ih =>
    intro acc x
    simp only [List.foldl_cons]
    by_cases h : a ∈ acc
    · rw [if_pos h, ih]
      constructor
      · rintro (hx | hx)
        · exact Or.inl hx
        · exact Or.inr (List.mem_cons_of_mem a hx)
      · rintro (hx | hx)
        · exact Or.inl hx
        · rcases List.mem_cons.mp hx with rfl | hx
          · exact Or.inl h
          · exact Or.inr hx
    · rw [if_neg h, ih]
      simp [List.mem_append, List.mem_cons, or_assoc]

lemma mem_uniqueOrder {α : Type} [DecidableEq α] {ws : List α} {x : α} :
    x ∈ uniqueOrder ws ↔ x ∈ ws := by
  unfold uniqueOrder
  rw [uniqueOrder_loop_mem]
  simp

lemma uniqueOrder_loop_nodup {α : Type} [DecidableEq α] :
    ∀ (ws acc : List α), acc.Nodup →
      (ws.foldl (fun acc w => if w ∈ acc then acc else acc ++ [w]) acc).Nodup := by
  intro ws
  induction ws with
  | nil => exact fun acc h => h
  | cons a t ih =>
    intro acc hacc
    simp only [List.foldl_cons]
    by_cases h : a ∈ acc
    · rw [if_pos h]
      exact ih acc hacc
    · rw [if_neg h]
      refine ih (acc ++ [a]) ?_
      simp [List.nodup_append, hacc, h]

lemma uniqueOrder_nodup {α : Type} [DecidableEq α] (ws : List α) :
    (uniqueOrder ws).Nodup :=
  uniqueOrder_loop_nodup ws [] List.nodup_nil

/-- `sorted(word_counts, key=word_counts.get, reverse=True)`: the distinct
words of `ws`, stably sorted by descending occurrence count. -/
def sorted_vocab {α : Type} [DecidableEq α] (ws : List α) : List α :=
  (uniqueOrder ws).mergeSort (fun a b => decide (ws.count b ≤ ws.count a))

/-- Embedding of `create_lookup_tables(words)`.  The two Python dictionaries
`vocab_to_int = {word: ii}` and `int_to_vocab = {ii: word}` are modelled as
association lists built from `enumerate(sorted_vocab)`. -/
def create_lookup_tables {α : Type} [DecidableEq α] (ws : List α) :
    List (α × Nat) × List (Nat × α) :=
  let int_to_vocab := (sorted_vocab ws).enum
  let vocab_to_int := (sorted_vocab ws).enum.map (fun p => (p.2, p.1))
  (vocab_to_int, int_to_vocab)

lemma sorted_vocab_perm {α : Type} [DecidableEq α] (ws : List α) :
    (sorted_vocab ws).Perm (uniqueOrder ws) :=
  List.mergeSort_perm _ _

lemma sorted_vocab_nodup {α : Type} [DecidableEq α] (ws : List α) :
    (sorted_vocab ws).Nodup :=
  (sorted_vocab_perm ws).symm.nodup (uniqueOrder_nodup ws)

lemma mem_sorted_vocab {α : Type} [DecidableEq α] {ws : List α} {w : α} :
    w ∈ sorted_vocab ws ↔ w ∈ ws := by
  rw [(sorted_vocab_perm ws).mem_iff, mem_uniqueOrder]

lemma sorted_vocab_pairwise {α : Type} [DecidableEq α] (ws : List α) :
    (sorted_vocab ws).Pairwise (fun a b => ws.count b ≤ ws.count a) := by
  have h := @List.sorted_mergeSort α
    (fun a b => decide (ws.count b ≤ ws.count a))
    (fun a b c hab hbc => by
      simp only [decide_eq_true_eq] at *
      exact le_trans hbc hab)
    (fun a b => by
      simpa using Nat.le_total (ws.count b) (ws.count a))
    (uniqueOrder ws)
  exact h.imp (fun hab => by simpa using hab)

lemma lookup_enumFrom {β : Type} :
    ∀ (l : List β) (n k : Nat), (List.enumFrom n l).lookup (n + k) = l[k]? := by
  intro l
  induction l with
  | nil => intro n k; rfl
  | cons a t ih =>
    intro n k
    rw [List.enumFrom_cons]
    cases k with
    | zero => simp [List.lookup_cons]
    | succ k =>
      have h1 : (n + (k + 1) == n) = false := by
        rw [beq_eq_false_iff_ne]
        omega
      rw [List.lookup_cons]
      simp only [h1]
      have h2 : n + (k + 1) = (n + 1) + k := by omega
      rw [h2, ih (n + 1) k]
      simp

lemma lookup_enum {β : Type} (l : List β) (k : Nat) :
    l.enum.lookup k = l[k]? := by
  have h := lookup_enumFrom l 0 k
  simpa [List.enum] using h

lemma lookup_swap_enumFrom_of_mem {α : Type} [DecidableEq α] :
    ∀ (l : List α) (n : Nat) (w : α), w ∈ l →
      ((List.enumFrom n l).map (fun p => (p.2, p.1))).lookup w =
        some (n + l.indexOf w) := by
  intro l
  induction l with
  | nil => intro n w hw; cases hw
  | cons a t ih =>
    intro n w hw
    by_cases h : w = a
    · subst h
      simp [List.enumFrom_cons, List.lookup_cons, List.indexOf_cons_self]
    · have hw2 : w ∈ t := by
        rcases List.mem_cons.mp hw with rfl | hx
        · exact absurd rfl h
        · exact hx
      have hbeq : (w == a) = false := by
        simp [h]
      have hidx : List.indexOf w (a :: t) = (List.indexOf w t).succ :=
        List.indexOf_cons_ne t (fun hh => h hh.symm)
      rw [List.enumFrom_cons, List.map_cons]
      simp only [List.lookup_cons, hbeq, ih (n + 1) w hw2, hidx]
      have : n + (List.indexOf w t).succ = n + 1 + List.indexOf w t := by omega
      simp [this]

lemma lookup_swap_enumFrom_some {α : Type} [DecidableEq α] :
    ∀ (l : List α) (n : Nat) (w : α) (i : Nat),
      ((List.enumFrom n l).map (fun p => (p.2, p.1))).lookup w = some i →
      ∃ k, i = n + k ∧ l[k]? = some w := by
  intro l
  induction l with
  | nil => intro n w i h; cases h
  | cons a t ih =>
    intro n w i h
    rw [List.enumFrom_cons, List.map_cons] at h
    by_cases hw : w = a
    · subst hw
      simp [List.lookup_cons] at h
      exact ⟨0, by omega, by simp⟩
    · have hbeq : (w == a) = false := by
        simp [hw]
      simp only [List.lookup_cons, hbeq] at h
      obtain ⟨k, hk, hget⟩ := ih (n + 1) w i h
      exact ⟨k + 1, by omega, by simpa using hget⟩

/-- C4: confirmed.  For a non-empty word list the two tables are mutual
inverses: looking up any input word in `vocab_to_int` and the result in
`int_to_vocab` returns the word; every assigned id maps back to its word and
forth to the same id; and the assigned ids are exactly
`0 .. (number of distinct words) - 1`. -/
theorem create_lookup_tables_inverse {α : Type} [DecidableEq α]
    (ws : List α) (hne : ws ≠ []) :
    (∀ w ∈ ws, ∃ i, (create_lookup_tables ws).1.lookup w = some i ∧
        (create_lookup_tables ws).2.lookup i = some w) ∧
    (∀ i w, (create_lookup_tables ws).2.lookup i = some w →
        (create_lookup_tables ws).1.lookup w = some i) ∧
    (create_lookup_tables ws).2.map Prod.fst =
      List.range (uniqueOrder ws).length := by
  have hnd := sorted_vocab_nodup ws
  refine ⟨?_, ?_, ?_⟩
  · intro w hw
    have hmem : w ∈ sorted_vocab ws := mem_sorted_vocab.mpr hw
    have hidx : (sorted_vocab ws).indexOf w < (sorted_vocab ws).length :=
      List.indexOf_lt_length.mpr hmem
    refine ⟨(sorted_vocab ws).indexOf w, ?_, ?_⟩
    · have h := lookup_swap_enumFrom_of_mem (sorted_vocab ws) 0 w hmem
      simpa [create_lookup_tables, List.enum] using h
    · have h := lookup_enum (sorted_vocab ws) ((sorted_vocab ws).indexOf w)
      have hg : (sorted_vocab ws)[(sorted_vocab ws).indexOf w]? = some w := by
        rw [List.getElem?_eq_getElem hidx]
        exact congrArg some (List.indexOf_get hidx)
      simpa [create_lookup_tables, hg] using h
  · intro i w h
    simp only [create_lookup_tables] at h
    rw [lookup_enum] at h
    obtain ⟨hi, hw⟩ := List.getElem?_eq_some.mp h
    have hmem : w ∈ sorted_vocab ws := hw ▸ List.getElem_mem hi
    have hix : (sorted_vocab ws).indexOf w = i := by
      have := List.get_indexOf hnd ⟨i, hi⟩
      simpa [hw] using this
    have h2 := lookup_swap_enumFrom_of_mem (sorted_vocab ws) 0 w hmem
    simpa [create_lookup_tables, List.enum, hix] using h2
  · simp only [create_lookup_tables]
    rw [List.enum_map_fst, (sorted_vocab_perm ws).length_eq]

/-- C4 witness: the theorem applied to the concrete word list `[1, 2, 2]`. -/
theorem create_lookup_tables_inverse_witness :
    ([1, 2, 2] : List Nat) ≠ [] ∧
    ((∀ w ∈ ([1, 2, 2] : List Nat), ∃ i,
        (create_lookup_tables [1, 2, 2]).1.lookup w = some i ∧
        (create_lookup_tables [1, 2, 2]).2.lookup i = some w) ∧
    (∀ i w, (create_lookup_tables [1, 2, 2]).2.lookup i = some w →
        (create_lookup_tables [1, 2, 2]).1.lookup w = some i) ∧
    (create_lookup_tables [1, 2, 2]).2.map Prod.fst =
      List.range (uniqueOrder [1, 2, 2]).length) :=
  ⟨by decide, create_lookup_tables_inverse [1, 2, 2] (by decide)⟩

/-- C5: confirmed.  A smaller assigned id never has a strictly smaller
occurrence count: if `vocab_to_int` maps `w1` below `w2` then `w1` occurs at
least as often, and the word with id `0` has maximal occurrence count among
all input words. -/
theorem create_lookup_tables_desc_freq {α : Type} [DecidableEq α]
    (ws : List α) (w1 w2 : α) (i1 i2 : Nat)
    (h1 : w1 ∈ ws) (h2 : w2 ∈ ws)
    (e1 : (create_lookup_tables ws).1.lookup w1 = some i1)
    (e2 : (create_lookup_tables ws).1.lookup w2 = some i2)
    (hlt : i1 < i2) :
    ws.count w2 ≤ ws.count w1 ∧
    ∃ w0, (create_lookup_tables ws).2.lookup 0 = some w0 ∧
      ∀ w ∈ ws, ws.count w ≤ ws.count w0 := by
  have hp := sorted_vocab_pairwise ws
  rw [List.pairwise_iff_getElem] at hp
  simp only [create_lookup_tables, List.enum] at e1 e2
  obtain ⟨k1, hk1, hg1⟩ := lookup_swap_enumFrom_some (sorted_vocab ws) 0 w1 i1 e1
  obtain ⟨k2, hk2, hg2⟩ := lookup_swap_enumFrom_some (sorted_vocab ws) 0 w2 i2 e2
  obtain ⟨hi1, hw1⟩ := List.getElem?_eq_some.mp hg1
  obtain ⟨hi2, hw2⟩ := List.getElem?_eq_some.mp hg2
  have hlt2 : k1 < k2 := by omega
  constructor
  · have := hp k1 k2 hi1 hi2 hlt2
    rwa [hw1, hw2] at this
  · have h0 : 0 < (sorted_vocab ws).length := lt_of_le_of_lt (Nat.zero_le k2) hi2
    refine ⟨(sorted_vocab ws)[0], ?_, ?_⟩
    · simp only [create_lookup_tables]
      rw [lookup_enum]
      exact List.getElem?_eq_getElem h0
    · intro w hw
      have hmem : w ∈ sorted_vocab ws := mem_sorted_vocab.mpr hw
      obtain ⟨j, hj, rfl⟩ := List.getElem_of_mem hmem
      rcases Nat.eq_zero_or_pos j with rfl | hjpos
      · exact le_refl _
      · exact hp 0 j h0 hj hjpos

/-- C5 witness: in `[1, 2, 2]` the word `2` (count 2) gets id `0` and the
word `1` (count 1) gets id `1`. -/
theorem create_lookup_tables_desc_freq_witness :
    ((2 : Nat) ∈ ([1, 2, 2] : List Nat) ∧ (1 : Nat) ∈ ([1, 2, 2] : List Nat) ∧
      (create_lookup_tables [1, 2, 2]).1.lookup 2 = some 0 ∧
      (create_lookup_tables [1, 2, 2]).1.lookup 1 = some 1 ∧ 0 < 1) ∧
    (List.count 1 [1, 2, 2] ≤ List.count 2 [1, 2, 2] ∧
      ∃ w0, (create_lookup_tables [1, 2, 2]).2.lookup 0 = some w0 ∧
        ∀ w ∈ ([1, 2, 2] : List Nat),
          List.count w [1, 2, 2] ≤ List.count w0 [1, 2, 2]) :=
  ⟨⟨by decide, by decide,
    by simp [create_lookup_tables, sorted_vocab, uniqueOrder, List.mergeSort,
      List.enum, List.enumFrom, List.lookup],
    by simp [create_lookup_tables, sorted_vocab, uniqueOrder, List.mergeSort,
      List.enum, List.enumFrom, List.lookup],
    by decide⟩,
    create_lookup_tables_desc_freq [1, 2, 2] 2 1 0 1 (by decide) (by decide)
      (by simp [create_lookup_tables, sorted_vocab, uniqueOrder, List.mergeSort,
        List.enum, List.enumFrom, List.lookup])
      (by simp [create_lookup_tables, sorted_vocab, uniqueOrder, List.mergeSort,
        List.enum, List.enumFrom, List.lookup])
      (by decide)⟩

/-- Python's `str.replace(pat, rep)`: left-to-right, non-overlapping
replacement of every occurrence of `pat` by `rep`.  (All patterns used by
`preprocess` are non-empty; the `pat ≠ []` guard only serves termination.) -/
def replaceAll (pat rep : List Char) : List Char → List Char
  | [] => []
  | c :: rest =>
    if h : pat ≠ [] ∧ pat.isPrefixOf (c :: rest) then
      rep ++ replaceAll pat rep ((c :: rest).drop pat.length)
    else
      c :: replaceAll pat rep rest
termination_by s => s.length
decreasing_by
  · have hpos : 0 < pat.length := List.length_pos.mpr h.1
    simp only [List.length_drop, List.length_cons]
    omega
  · simp

/-- The whitespace test used by Python's no-argument `str.split()`. -/
def isSpaceChar (c : Char) : Bool :=
  c == ' ' || c == '\t' || c == '\n' || c == '\r'

/-- Python's no-argument `str.split()`: maximal runs of non-whitespace
characters, in order; empty pieces never occur. -/
def pySplit : List Char → List (List Char)
  | [] => []
  | c :: rest =>
    if isSpaceChar c then pySplit rest
    else (c :: rest.takeWhile (fun d => !isSpaceChar d)) ::
      pySplit (rest.dropWhile (fun d => !isSpaceChar d))
termination_by s => s.length
decreasing_by
  · simp
  · have h := (@List.dropWhile_suffix Char rest
      (fun d => !isSpaceChar d)).sublist.length_le
    simp only [List.length_cons]
    omega

/-- The replacement table of `preprocess`, in source order (the `'?'` entry
is applied twice in the source, so it appears twice here). -/
def punctReplacements : List (List Char × List Char) :=
  [(".".toList, " <PERIOD> ".toList),
   (",".toList, " <COMMA> ".toList),
   ("\"".toList, " <QUOTATION_MARK> ".toList),
   (";".toList, " <SEMICOLON> ".toList),
   ("!".toList, " <EXCLAMATION_MARK> ".toList),
   ("?".toList, " <QUESTION_MARK> ".toList),
   ("(".toList, " <LEFT_PAREN> ".toList),
   (")".toList, " <RIGHT_PAREN> ".toList),
   ("--".toList, " <HYPHENS> ".toList),
   ("?".toList, " <QUESTION_MARK> ".toList),
   (":".toList, " <COLON> ".toList)]

/-- The text after `text.lower()` and the chain of `text.replace(...)`
calls of `preprocess`, before splitting. -/
def lowerReplaced (text : List Char) : List Char :=
  punctReplacements.foldl (fun acc p => replaceAll p.1 p.2 acc)
    (text.map Char.toLower)

/-- The tokenized text: lowercased, punctuation-replaced and
whitespace-split. -/
def tokenize (text : List Char) : List (List Char) :=
  pySplit (lowerReplaced text)

/-- Embedding of `preprocess(text)`: tokenize, then keep the words whose
occurrence count in the tokenized text exceeds 5. -/
def preprocess (text : List Char) : List (List Char) :=
  let words := tokenize text
  words.filter (fun w => 5 < words.count w)

/-- C6: confirmed.  Every token kept by `preprocess` occurs more than five
times in the tokenized text; the kept tokens form a sublist of the tokenized
text (each frequent token is kept at each of its positions, in order); and a
token's count in the output is its full count when that exceeds five and `0`
otherwise. -/
theorem preprocess_keeps_frequent (text : List Char) :
    (∀ w ∈ preprocess text, 5 < (tokenize text).count w) ∧
    (preprocess text).Sublist (tokenize text) ∧
    (∀ w, (preprocess text).count w =
      if 5 < (tokenize text).count w then (tokenize text).count w else 0) := by
  refine ⟨?_, ?_, ?_⟩
  · intro w hw
    simp only [preprocess] at hw
    have h := (List.mem_filter.mp hw).2
    simpa using h
  · simp only [preprocess]
    exact List.filter_sublist _
  · intro w
    by_cases h : 5 < (tokenize text).count w
    · rw [if_pos h]
      simp only [preprocess]
      exact List.count_filter (by simpa using h)
    · rw [if_neg h]
      simp only [preprocess]
      rw [List.count_eq_zero]
      intro hw
      exact h (by simpa using (List.mem_filter.mp hw).2)

/-- C6 witness: the theorem applied to a concrete text in which `a` occurs
six times and `b` once. -/
theorem preprocess_keeps_frequent_witness :
    (∀ w ∈ preprocess ("a a a a a a b".toList),
      5 < (tokenize ("a a a a a a b".toList)).count w) ∧
    (preprocess ("a a a a a a b".toList)).Sublist
      (tokenize ("a a a a a a b".toList)) ∧
    (∀ w, (preprocess ("a a a a a a b".toList)).count w =
      if 5 < (tokenize ("a a a a a a b".toList)).count w then
        (tokenize ("a a a a a a b".toList)).count w else 0) :=
  preprocess_keeps_frequent ("a a a a a a b".toList)

/-- The punctuation characters whose occurrences `preprocess` replaces
(the double hyphen is handled separately as a two-character pattern). -/
def badPunctChars : List Char :=
  ['.', ',', '\"', ';', '!', '?', '(', ')', ':']

/-- No two adjacent hyphens: the two-character pattern `--` does not occur. -/
def noDoubleHyphen (l : List Char) : Prop :=
  l.Chain' (fun a b => ¬(a = '-' ∧ b = '-'))

lemma noDoubleHyphen_of_not_mem {l : List Char} (h : '-' ∉ l) :
    noDoubleHyphen l := by
  induction l with
  | nil => exact List.chain'_nil
  | cons a t ih =>
    rw [noDoubleHyphen, List.chain'_cons']
    refine ⟨?_, ih (fun hm => h (List.mem_cons_of_mem a hm))⟩
    intro y _ hc
    exact h (hc.1 ▸ List.mem_cons_self a t)

lemma not_infix_of_noDoubleHyphen {l : List Char}
    (h : noDoubleHyphen l) : ¬ (['-', '-'] <:+: l) := by
  intro hinf
  have h2 : List.Chain' (fun a b => ¬(a = '-' ∧ b = '-')) ['-', '-'] :=
    List.Chain'.infix h hinf
  rw [List.chain'_cons] at h2
  exact h2.1 ⟨rfl, rfl⟩

/-- Every character of `replaceAll pat rep s` comes from `s` or from `rep`. -/
lemma replaceAll_subset (pat rep : List Char) :
    ∀ (s : List Char) (x : Char), x ∈ replaceAll pat rep s → x ∈ s ∨ x ∈ rep := by
  intro s
  induction s using replaceAll.induct pat rep with
  | case1 => intro x hx; rw [replaceAll] at hx; cases hx
  | case2 c rest h ih =>
    intro x hx
    rw [replaceAll, dif_pos h] at hx
    rcases List.mem_append.mp hx with hx | hx
    · exact Or.inr hx
    · rcases ih x hx with hx | hx
      · exact Or.inl (List.drop_subset _ _ hx)
      · exact Or.inr hx
  | case3 c rest h ih =>
    intro x hx
    rw [replaceAll, dif_neg h] at hx
    rcases List.mem_cons.mp hx with rfl | hx
    · exact Or.inl (List.mem_cons_self x rest)
    · rcases ih x hx with hx | hx
      · exact Or.inl (List.mem_cons_of_mem c hx)
      · exact Or.inr hx

/-- After replacing the single-character pattern `[p]` by a replacement not
containing `p`, the character `p` is gone. -/
lemma replaceAll_single_not_mem (p : Char) (rep : List Char)
    (hrep : p ∉ rep) : ∀ s, p ∉ replaceAll [p] rep s := by
  intro s
  induction s using replaceAll.induct [p] rep with
  | case1 => simp [replaceAll]
  | case2 c rest h ih =>
    rw [replaceAll, dif_pos h]
    intro hmem
    rcases List.mem_append.mp hmem with hmem | hmem
    · exact hrep hmem
    · exact ih hmem
  | case3 c rest h ih =>
    rw [replaceAll, dif_neg h]
    intro hmem
    have hcne : p ≠ c := by
      intro hpc
      apply h
      refine ⟨by simp, ?_⟩
      rw [List.isPrefixOf_cons₂]
      simp [hpc]
    rcases List.mem_cons.mp hmem with hpc | hmem
    · exact hcne hpc
    · exact ih hmem

/-- Replacement with a non-empty, hyphen-free replacement string never leaves
two adjacent hyphens: either the pattern is `--` itself (which removes them),
or the input already had none.  The second conjunct tracks that the output
can only start with a hyphen if the input did. -/
lemma replaceAll_noDoubleHyphen (pat rep : List Char) (hrep : '-' ∉ rep)
    (hne : rep ≠ []) :
    ∀ s, (pat = ['-', '-'] ∨ noDoubleHyphen s) →
      noDoubleHyphen (replaceAll pat rep s) ∧
      ((replaceAll pat rep s).head? = some '-' → s.head? = some '-') := by
  intro s
  induction s using replaceAll.induct pat rep with
  | case1 =>
    intro _
    rw [replaceAll]
    exact ⟨List.chain'_nil, fun h => by cases h⟩
  | case2 c rest h ih =>
    intro hyp
    have hyp2 : pat = ['-', '-'] ∨ noDoubleHyphen ((c :: rest).drop pat.length) := by
      rcases hyp with hyp | hyp
      · exact Or.inl hyp
      · exact Or.inr (List.Chain'.suffix hyp (List.drop_suffix _ _))
    obtain ⟨ih1, _⟩ := ih hyp2
    rw [replaceAll, dif_pos h]
    constructor
    · rw [noDoubleHyphen, List.chain'_append]
      refine ⟨noDoubleHyphen_of_not_mem hrep, ih1, ?_⟩
      intro x hx y _ hc
      exact hrep (hc.1 ▸ List.mem_of_mem_getLast? hx)
    · intro hhead
      exfalso
      cases rep with
      | nil => exact hne rfl
      | cons r rrest =>
        rw [List.cons_append] at hhead
        simp only [List.head?_cons, Option.some.injEq] at hhead
        exact hrep (hhead ▸ List.mem_cons_self r rrest)
  | case3 c rest h ih =>
    intro hyp
    have hyp2 : pat = ['-', '-'] ∨ noDoubleHyphen rest := by
      rcases hyp with hyp | hyp
      · exact Or.inl hyp
      · exact Or.inr (List.Chain'.tail hyp)
    obtain ⟨ih1, ih2⟩ := ih hyp2
    rw [replaceAll, dif_neg h]
    constructor
    · rw [noDoubleHyphen, List.chain'_cons']
      refine ⟨?_, ih1⟩
      intro y hy hc
      have hresthead : rest.head? = some '-' := by
        apply ih2
        rw [Option.mem_def] at hy
        rw [hy, hc.2]
      obtain ⟨rest2, hrest2⟩ : ∃ rest2, rest = '-' :: rest2 := by
        cases rest with
        | nil => cases hresthead
        | cons a t =>
          simp only [List.head?_cons, Option.some.injEq] at hresthead
          exact ⟨t, by rw [hresthead]⟩
      rcases hyp with hyp | hyp
      · apply h
        subst hyp
        refine ⟨by simp, ?_⟩
        rw [hrest2, hc.1]
        rw [List.isPrefixOf_cons₂]
        simp [List.isPrefixOf_cons₂, List.isPrefixOf]
      · rw [hrest2, hc.1] at hyp
        rw [noDoubleHyphen, List.chain'_cons] at hyp
        exact hyp.1 ⟨rfl, rfl⟩
    · intro hhead
      simpa using hhead

lemma fold_preserves_not_mem (q : Char) :
    ∀ (steps : List (List Char × List Char)) (s : List Char),
      (∀ p ∈ steps, q ∉ p.2) → q ∉ s →
      q ∉ steps.foldl (fun acc p => replaceAll p.1 p.2 acc) s := by
  intro steps
  induction steps with
  | nil => intro s _ hs; exact hs
  | cons p ps ih =>
    intro s hreps hs
    rw [List.foldl_cons]
    refine ih _ (fun p2 hp2 => hreps p2 (List.mem_cons_of_mem p hp2)) ?_
    intro hmem
    rcases replaceAll_subset p.1 p.2 s q hmem with hmem | hmem
    · exact hs hmem
    · exact hreps p (List.mem_cons_self p ps) hmem

lemma fold_removes_char (q : Char) :
    ∀ (steps : List (List Char × List Char)) (s : List Char),
      (∀ p ∈ steps, q ∉ p.2) → (∃ p ∈ steps, p.1 = [q]) →
      q ∉ steps.foldl (fun acc p => replaceAll p.1 p.2 acc) s := by
  intro steps
  induction steps with
  | nil => intro s _ hin; simp at hin
  | cons p ps ih =>
    intro s hreps hin
    rw [List.foldl_cons]
    obtain ⟨p2, hp2, hpq⟩ := hin
    rcases List.mem_cons.mp hp2 with rfl | hp2
    · refine fold_preserves_not_mem q ps _
        (fun p3 hp3 => hreps p3 (List.mem_cons_of_mem p2 hp3)) ?_
      rw [hpq]
      exact replaceAll_single_not_mem q p2.2
        (hreps p2 (List.mem_cons_self p2 ps)) s
    · exact ih _ (fun p3 hp3 => hreps p3 (List.mem_cons_of_mem p hp3))
        ⟨p2, hp2, hpq⟩

lemma fold_preserves_noDoubleHyphen :
    ∀ (steps : List (List Char × List Char)) (s : List Char),
      (∀ p ∈ steps, '-' ∉ p.2 ∧ p.2 ≠ []) → noDoubleHyphen s →
      noDoubleHyphen (steps.foldl (fun acc p => replaceAll p.1 p.2 acc) s) := by
  intro steps
  induction steps with
  | nil => intro s _ hs; exact hs
  | cons p ps ih =>
    intro s hreps hs
    rw [List.foldl_cons]
    refine ih _ (fun p2 hp2 => hreps p2 (List.mem_cons_of_mem p hp2)) ?_
    obtain ⟨h1, h2⟩ := hreps p (List.mem_cons_self p ps)
    exact (replaceAll_noDoubleHyphen p.1 p.2 h1 h2 s (Or.inr hs)).1

lemma fold_noDoubleHyphen :
    ∀ (steps : List (List Char × List Char)) (s : List Char),
      (∀ p ∈ steps, '-' ∉ p.2 ∧ p.2 ≠ []) →
      (∃ p ∈ steps, p.1 = ['-', '-']) →
      noDoubleHyphen (steps.foldl (fun acc p => replaceAll p.1 p.2 acc) s) := by
  intro steps
  induction steps with
  | nil => intro s _ hin; simp at hin
  | cons p ps ih =>
    intro s hreps hin
    rw [List.foldl_cons]
    obtain ⟨p2, hp2, hpq⟩ := hin
    rcases List.mem_cons.mp hp2 with rfl | hp2
    · refine fold_preserves_noDoubleHyphen ps _
        (fun p3 hp3 => hreps p3 (List.mem_cons_of_mem p2 hp3)) ?_
      obtain ⟨h1, h2⟩ := hreps p2 (List.mem_cons_self p2 ps)
      exact (replaceAll_noDoubleHyphen p2.1 p2.2 h1 h2 s (Or.inl hpq)).1
    · exact ih _ (fun p3 hp3 => hreps p3 (List.mem_cons_of_mem p hp3))
        ⟨p2, hp2, hpq⟩

/-- After lowering and the full replacement chain, none of the replaced
single punctuation characters remains and no two adjacent hyphens remain. -/
lemma lowerReplaced_clean (text : List Char) :
    (∀ q ∈ badPunctChars, q ∉ lowerReplaced text) ∧
    noDoubleHyphen (lowerReplaced text) := by
  constructor
  · intro q hq
    rw [lowerReplaced]
    fin_cases hq <;>
      exact fold_removes_char _ punctReplacements _ (by decide) (by decide)
  · rw [lowerReplaced]
    exact fold_noDoubleHyphen punctReplacements _ (by decide) (by decide)

/-- Every token produced by `pySplit` is a contiguous piece of the input. -/
lemma pySplit_piece_within : ∀ (s : List Char), ∀ w ∈ pySplit s, w <:+: s := by
  intro s
  induction s using pySplit.induct with
  | case1 => intro w hw; rw [pySplit] at hw; cases hw
  | case2 c rest h ih =>
    intro w hw
    rw [pySplit, if_pos h] at hw
    exact (ih w hw).trans (List.suffix_cons c rest).isInfix
  | case3 c rest h ih =>
    intro w hw
    rw [pySplit, if_neg h] at hw
    rcases List.mem_cons.mp hw with rfl | hw
    · refine List.IsPrefix.isInfix ?_
      rw [List.cons_prefix_cons]
      exact ⟨rfl, List.takeWhile_prefix _⟩
    · refine (ih w hw).trans ?_
      exact ((List.dropWhile_suffix _).trans (List.suffix_cons c rest)).isInfix

/-- C7: confirmed.  No token returned by `preprocess` contains any of the
replaced punctuation characters, and none contains the two-character
double-hyphen pattern: each punctuation mark was replaced by its sentinel
token surrounded by spaces before splitting. -/
theorem preprocess_no_punctuation (text : List Char) :
    ∀ w ∈ preprocess text,
      (∀ c ∈ w, c ∉ badPunctChars) ∧ ¬ (['-', '-'] <:+: w) := by
  intro w hw
  have hw2 : w ∈ tokenize text := by
    simp only [preprocess] at hw
    exact (List.mem_filter.mp hw).1
  have hinf : w <:+: lowerReplaced text := pySplit_piece_within _ w hw2
  have hclean := lowerReplaced_clean text
  constructor
  · intro c hc hbad
    exact hclean.1 c hbad (hinf.subset hc)
  · intro hdd
    exact not_infix_of_noDoubleHyphen hclean.2 (hdd.trans hinf)

/-- C7 witness: the theorem applied to the token `a` of a concrete text in
which it survives the frequency filter. -/
theorem preprocess_no_punctuation_witness :
    (['a'] : List Char) ∈
      preprocess ['a', ' ', 'a', ' ', 'a', ' ', 'a', ' ', 'a', ' ', 'a'] ∧
    ((∀ c ∈ (['a'] : List Char), c ∉ badPunctChars) ∧
      ¬ (['-', '-'] <:+: (['a'] : List Char))) := by
  have hmem : (['a'] : List Char) ∈
      preprocess ['a', ' ', 'a', ' ', 'a', ' ', 'a', ' ', 'a', ' ', 'a'] := by
    simp [preprocess, tokenize, lowerReplaced, punctReplacements, replaceAll,
      pySplit, isSpaceChar]
  exact ⟨hmem, preprocess_no_punctuation _ ['a'] hmem⟩

/-- C9 witness: the theorem applied to a concrete input and a concrete
outcome of the draws. -/
theorem train_words_subsequence_witness :
    (train_words [3, 5, 3, 7] (fun i => i % 2 == 0)).Sublist [3, 5, 3, 7] ∧
    (∀ v, (train_words [3, 5, 3, 7] (fun i => i % 2 == 0)).count v ≤
      List.count v [3, 5, 3, 7]) ∧
    (∀ v ∈ train_words [3, 5, 3, 7] (fun i => i % 2 == 0), v ∈ [3, 5, 3, 7]) :=
  train_words_subsequence [3, 5, 3, 7] (fun i => i % 2 == 0)

/-- A fully connected linear layer: architecture metadata plus parameters.
Modelled from the spec: `fc_model.Network` is imported by the checkpoint
notebook but its source file is not part of the repository; the layer shape
is taken from the notebook's printed architecture
(`Linear(in_features=…, out_features=…)`), with the framework's weight and
bias tensors as integer matrices and vectors. -/
structure Linear where
  in_features : Nat
  out_features : Nat
  weight : List (List Int)
  bias : List Int
deriving DecidableEq

/-- A freshly initialised layer of the given shape. -/
def newLinear (nin nout : Nat) : Linear :=
  { in_features := nin
  , out_features := nout
  , weight := List.replicate nout (List.replicate nin 0)
  , bias := List.replicate nout 0 }

/-- Modelled from the spec: the fully connected network of `fc_model`, a list
of hidden layers followed by an output layer. -/
structure Network where
  hidden_layers : List Linear
  output : Linear
deriving DecidableEq

/-- Modelled from the spec: `fc_model.Network(input_size, output_size,
hidden_layers)` chains hidden layers `input_size → h1 → h2 → …` and an output
layer `h_last → output_size`, with freshly initialised parameters. -/
def networkNew (input_size output_size : Nat) (hidden : List Nat) : Network :=
  { hidden_layers := ((input_size :: hidden).zip hidden).map
      (fun p => newLinear p.1 p.2)
  , output := newLinear
      ((input_size :: hidden).getLast (List.cons_ne_nil _ _)) output_size }

/-- The model's `state_dict`: the parameter tensors of every layer in order,
hidden layers first, then the output layer. -/
def Network.state_dict (m : Network) : List (List (List Int) × List Int) :=
  m.hidden_layers.map (fun l => (l.weight, l.bias)) ++
    [(m.output.weight, m.output.bias)]

/-- Loading saved parameters into one layer.  PyTorch raises an error when
the tensor sizes do not match the layer (the notebook demonstrates exactly
this failure); success replaces the layer's parameters. -/
def Linear.loadParams (l : Linear) (p : List (List Int) × List Int) :
    Option Linear :=
  if p.1.length = l.out_features ∧
      (∀ row ∈ p.1, row.length = l.in_features) ∧
      p.2.length = l.out_features then
    some { l with weight := p.1, bias := p.2 }
  else
    none

/-- Loading a list of per-layer parameter entries into a list of layers;
a length mismatch between keys and layers is an error. -/
def loadLayerList : List Linear → List (List (List Int) × List Int) →
    Option (List Linear)
  | [], [] => some []
  | l :: ls, p :: ps =>
    match l.loadParams p, loadLayerList ls ps with
    | some l2, some ls2 => some (l2 :: ls2)
    | _, _ => none
  | _, _ => none

/-- `model.load_state_dict(sd)`: hidden layers receive the leading entries,
the output layer the final one; any mismatch is an error. -/
def Network.load_state_dict (m : Network)
    (sd : List (List (List Int) × List Int)) : Option Network :=
  match loadLayerList m.hidden_layers (sd.take m.hidden_layers.length),
      sd.drop m.hidden_layers.length with
  | some hs, [p] =>
    match m.output.loadParams p with
    | some o => some { hidden_layers := hs, output := o }
    | none => none
  | _, _ => none

/-- The checkpoint dictionary written by the notebook: the two size fields,
the `out_features` of each hidden layer, and the model's `state_dict`. -/
structure Checkpoint where
  input_size : Nat
  output_size : Nat
  hidden_layers : List Nat
  state_dict : List (List (List Int) × List Int)

/-- Building the checkpoint from a model (the notebook cell
`checkpoint = {'input_size': …, 'output_size': …, 'hidden_layers':
[each.out_features for each in model.hidden_layers], 'state_dict':
model.state_dict()}`). -/
def mkCheckpoint (input_size output_size : Nat) (m : Network) : Checkpoint :=
  { input_size := input_size
  , output_size := output_size
  , hidden_layers := m.hidden_layers.map Linear.out_features
  , state_dict := m.state_dict }

/-- Embedding of `load_checkpoint`: rebuild the architecture from the
checkpoint metadata, then load the saved parameters into it. -/
def load_checkpoint (c : Checkpoint) : Option Network :=
  (networkNew c.input_size c.output_size c.hidden_layers).load_state_dict
    c.state_dict

/-- Well-shaped parameters for a layer. -/
def Linear.shapeOK (l : Linear) : Prop :=
  l.weight.length = l.out_features ∧
  (∀ row ∈ l.weight, row.length = l.in_features) ∧
  l.bias.length = l.out_features

/-- A model realising the architecture `input_size → hidden → output_size`
with well-shaped parameters — every model built by the network constructor
and then trained satisfies this. -/
def Network.conforms (m : Network) (input_size output_size : Nat)
    (hidden : List Nat) : Prop :=
  m.hidden_layers.map (fun l => (l.in_features, l.out_features)) =
    (input_size :: hidden).zip hidden ∧
  m.output.in_features =
    (input_size :: hidden).getLast (List.cons_ne_nil _ _) ∧
  m.output.out_features = output_size ∧
  (∀ l ∈ m.hidden_layers, l.shapeOK) ∧
  m.output.shapeOK

lemma loadParams_roundtrip (l : Linear) (hs : l.shapeOK) :
    (newLinear l.in_features l.out_features).loadParams (l.weight, l.bias) =
      some l := by
  have hc : (l.weight, l.bias).1.length =
      (newLinear l.in_features l.out_features).out_features ∧
      (∀ row ∈ (l.weight, l.bias).1,
        row.length = (newLinear l.in_features l.out_features).in_features) ∧
      (l.weight, l.bias).2.length =
        (newLinear l.in_features l.out_features).out_features := hs
  unfold Linear.loadParams
  rw [if_pos hc]
  rfl

lemma loadLayerList_roundtrip :
    ∀ (ms : List Linear), (∀ l ∈ ms, l.shapeOK) →
      loadLayerList
        (ms.map (fun l => newLinear l.in_features l.out_features))
        (ms.map (fun l => (l.weight, l.bias))) = some ms := by
  intro ms
  induction ms with
  | nil => intro _; rfl
  | cons l ls ih =>
    intro h
    simp only [List.map_cons, loadLayerList]
    rw [loadParams_roundtrip l (h l (List.mem_cons_self l ls)),
      ih (fun l2 hl2 => h l2 (List.mem_cons_of_mem l hl2))]

/-- C8: confirmed (against the spec-modelled network).  Saving a checkpoint
with the model's sizes, hidden-layer widths and `state_dict`, then calling
`load_checkpoint`, reconstructs the model exactly: same architecture and same
parameter values. -/
theorem load_checkpoint_roundtrip (input_size output_size : Nat)
    (hidden : List Nat) (m : Network)
    (hc : m.conforms input_size output_size hidden) :
    load_checkpoint (mkCheckpoint input_size output_size m) = some m := by
  obtain ⟨harch, hin, hout, hshapes, hos⟩ := hc
  have hsizes : m.hidden_layers.map Linear.out_features = hidden := by
    have h1 := congrArg (List.map Prod.snd) harch
    rw [List.map_map] at h1
    rw [List.map_snd_zip _ _ (by simp)] at h1
    exact h1
  have hfresh : ((input_size :: hidden).zip hidden).map
      (fun p => newLinear p.1 p.2) =
      m.hidden_layers.map (fun l => newLinear l.in_features l.out_features) := by
    rw [← harch, List.map_map]
    rfl
  unfold load_checkpoint mkCheckpoint
  dsimp only
  rw [hsizes]
  unfold Network.load_state_dict Network.state_dict networkNew
  dsimp only
  rw [hfresh]
  have hlen : (m.hidden_layers.map
      (fun l => newLinear l.in_features l.out_features)).length =
      (m.hidden_layers.map (fun l => (l.weight, l.bias))).length := by
    simp
  rw [hlen, List.take_left, List.drop_left]
  rw [loadLayerList_roundtrip m.hidden_layers hshapes]
  rw [← hin, ← hout]
  dsimp only
  rw [loadParams_roundtrip m.output hos]

/-- C8 witness: the round trip on a concrete conformant model of
architecture `2 → 2 → 1`. -/
theorem load_checkpoint_roundtrip_witness :
    (networkNew 2 1 [2]).conforms 2 1 [2] ∧
    load_checkpoint (mkCheckpoint 2 1 (networkNew 2 1 [2])) =
      some (networkNew 2 1 [2]) := by
  have hconf : (networkNew 2 1 [2]).conforms 2 1 [2] := by
    refine ⟨rfl, rfl, rfl, ?_, ⟨rfl, by decide, rfl⟩⟩
    intro l hl
    simp only [networkNew, List.zip, List.zipWith, List.map_cons, List.map_nil,
      List.mem_singleton] at hl
    subst hl
    exact ⟨rfl, by decide, rfl⟩
  exact ⟨hconf, load_checkpoint_roundtrip 2 1 [2] (networkNew 2 1 [2]) hconf⟩

end SkipGram
